import Mathlib

/-!
Verification development for `src/utils.rs` of the adblock-rust repository:
tokenization (basic and wildcard-suppressing character-class scanners),
fuzzy-signature construction, bit-flag helpers and binary search.

Modelling conventions:
* A pattern is a `List Char`; Rust `char_indices` byte offsets are modelled by
  accumulating `utf8Size` of the characters already consumed, and the byte
  slice `pattern[start..i]` is `sliceChars pattern 0 start i` (the characters
  whose starting byte offset lies in `[start, i)`).
* `u32` values are `Nat` with arithmetic reduced `% 2 ^ 32` where overflow can
  occur.
* The Rust `break` on a full 200-token buffer is modelled by the cap guard
  leaving the scan state unchanged on every remaining character, which yields
  the same final state as breaking out of the loop.
-/

abbrev Hash := Nat

/-- Reduction modulo `2 ^ 32`, the wrap-around of Rust `u32` arithmetic. -/
def m32 (x : Nat) : Nat := x % 4294967296

/-- 32-bit left rotation (argument assumed `< 2 ^ 32`). -/
def rotl32 (x r : Nat) : Nat := m32 (x <<< r) ||| (x >>> (32 - r))

def xxPrime1 : Nat := 2654435761
def xxPrime2 : Nat := 2246822519
def xxPrime3 : Nat := 3266489917
def xxPrime4 : Nat := 668265263
def xxPrime5 : Nat := 374761393

/-- Little-endian 32-bit word from four bytes. -/
def le32 (b0 b1 b2 b3 : Nat) : Nat := b0 + b1 * 256 + b2 * 65536 + b3 * 16777216

/-- One XXH32 accumulator round. -/
def xxRound (v lane : Nat) : Nat := m32 (rotl32 (m32 (v + m32 (lane * xxPrime2))) 13 * xxPrime1)

/-- XXH32 main loop: consume 16-byte stripes while at least 16 bytes remain. -/
def xxStripes : Nat → Nat → Nat → Nat → List Nat → Nat × Nat × Nat × Nat × List Nat
  | v1, v2, v3, v4,
    b0 :: b1 :: b2 :: b3 :: b4 :: b5 :: b6 :: b7 ::
    b8 :: b9 :: b10 :: b11 :: b12 :: b13 :: b14 :: b15 :: rest =>
      xxStripes (xxRound v1 (le32 b0 b1 b2 b3)) (xxRound v2 (le32 b4 b5 b6 b7))
        (xxRound v3 (le32 b8 b9 b10 b11)) (xxRound v4 (le32 b12 b13 b14 b15)) rest
  | v1, v2, v3, v4, bs => (v1, v2, v3, v4, bs)

/-- XXH32 tail: consume 4-byte words while at least 4 bytes remain. -/
def xxFours : Nat → List Nat → Nat × List Nat
  | acc, b0 :: b1 :: b2 :: b3 :: rest =>
      xxFours (m32 (rotl32 (m32 (acc + m32 (le32 b0 b1 b2 b3 * xxPrime3))) 17 * xxPrime4)) rest
  | acc, bs => (acc, bs)

/-- XXH32 tail: consume the remaining bytes one at a time. -/
def xxBytes : Nat → List Nat → Nat
  | acc, [] => acc
  | acc, b :: rest => xxBytes (m32 (rotl32 (m32 (acc + m32 (b * xxPrime5))) 11 * xxPrime1)) rest

/-- XXH32 final avalanche. -/
def xxAvalanche (h0 : Nat) : Nat :=
  let h1 := h0 ^^^ (h0 >>> 15)
  let h2 := m32 (h1 * xxPrime2)
  let h3 := h2 ^^^ (h2 >>> 13)
  let h4 := m32 (h3 * xxPrime3)
  h4 ^^^ (h4 >>> 16)

/-- The XXH32 hash of a byte sequence with the given seed. -/
def xxh32 (bytes : List Nat) (seed : Nat) : Nat :=
  let pair :=
    if 16 ≤ bytes.length then
      let r := xxStripes (m32 (seed + xxPrime1 + xxPrime2)) (m32 (seed + xxPrime2)) seed
        (m32 (seed + 4294967296 - xxPrime1)) bytes
      (m32 (rotl32 r.1 1 + rotl32 r.2.1 7 + rotl32 r.2.2.1 12 + rotl32 r.2.2.2.1 18),
        r.2.2.2.2)
    else (m32 (seed + xxPrime5), bytes)
  let acc := m32 (pair.1 + bytes.length)
  let tail := xxFours acc pair.2
  xxAvalanche (xxBytes tail.1 tail.2)

/-- Number of bytes of the UTF-8 encoding of a character. -/
def utf8Size (c : Char) : Nat :=
  if c.toNat < 128 then 1 else if c.toNat < 2048 then 2 else if c.toNat < 65536 then 3 else 4

/-- The UTF-8 encoding of a character. -/
def utf8Bytes (c : Char) : List Nat :=
  let v := c.toNat
  if v < 128 then [v]
  else if v < 2048 then [192 ||| (v >>> 6), 128 ||| (v &&& 63)]
  else if v < 65536 then
    [224 ||| (v >>> 12), 128 ||| ((v >>> 6) &&& 63), 128 ||| (v &&& 63)]
  else
    [240 ||| (v >>> 18), 128 ||| ((v >>> 12) &&& 63), 128 ||| ((v >>> 6) &&& 63),
      128 ||| (v &&& 63)]

/-- UTF-8 byte length of a string, i.e. Rust `str::len`. -/
def utf8Len (s : List Char) : Nat := (s.map utf8Size).sum

/-- UTF-8 encoding of a string. -/
def utf8Encode (s : List Char) : List Nat := (s.map utf8Bytes).flatten

/-- `fast_hash` from `utils.rs`: `fasthash::xx::hash32`, i.e. XXH32 with seed 0
over the UTF-8 bytes of the string. -/
def fast_hash (s : List Char) : Hash := xxh32 (utf8Encode s) 0

/-- `char::is_alphanumeric` from the Rust standard library (Unicode `Alphabetic`
or numeric). Modelled exactly on ASCII and on the Latin-1 Supplement and Latin
Extended letter ranges (up to U+02C1), which cover every character this
development evaluates; other code points are classified as not alphanumeric. -/
def is_alphanumeric (c : Char) : Bool :=
  let v := c.toNat
  (48 ≤ v && v ≤ 57) || (65 ≤ v && v ≤ 90) || (97 ≤ v && v ≤ 122) ||
    v == 170 || v == 181 || v == 186 ||
    (192 ≤ v && v ≤ 214) || (216 ≤ v && v ≤ 246) || (248 ≤ v && v ≤ 705)

/-- `is_allowed_filter` from `utils.rs`: alphanumeric or `%`. -/
def is_allowed_filter (c : Char) : Bool :=
  is_alphanumeric c || c == '%'

/-- `is_allowed_hostname` from `utils.rs`: the filter alphabet plus `_` and `-`. -/
def is_allowed_hostname (c : Char) : Bool :=
  is_allowed_filter c || c == '_' || c == '-'

/-- `TOKENS_BUFFER_SIZE` from `utils.rs`. -/
def TOKENS_BUFFER_SIZE : Nat := 200

/-- The characters of `pattern` whose starting byte offset lies in
`[start, stop)`, scanning from byte offset `off`; for `start`/`stop` on
character boundaries this is the Rust byte slice `pattern[start..stop]`. -/
def sliceChars : List Char → Nat → Nat → Nat → List Char
  | [], _, _, _ => []
  | c :: cs, off, start, stop =>
    if start ≤ off ∧ off < stop then c :: sliceChars cs (off + utf8Size c) start stop
    else sliceChars cs (off + utf8Size c) start stop

/-- Loop state of `fast_tokenizer_no_regex`: emitted tokens, the
inside-a-token flag, the current token start offset, and the last
non-alphabet character seen. `α` is the emission type (`Hash` for the real
tokenizer, `List Char` for the slice-instrumented variant). -/
structure ScanState (α : Type) where
  tokens : List α
  inside : Bool
  start : Nat
  preceding : Option Char

/-- One iteration of the `fast_tokenizer_no_regex` loop on character `c` at
byte offset `i`. The Rust `break` on a full buffer is modelled by leaving the
state unchanged. -/
def noRegexStep {α : Type} (emit : List Char → α) (isAllowed : Char → Bool)
    (skipFirst : Bool) (pattern : List Char) (i : Nat) (c : Char)
    (s : ScanState α) : ScanState α :=
  if TOKENS_BUFFER_SIZE ≤ s.tokens.length then s
  else if isAllowed c then
    if s.inside then s else { s with inside := true, start := i }
  else if s.inside then
    { s with
      inside := false
      tokens :=
        if (!skipFirst || s.start != 0) && decide (1 < i - s.start) && c != '*' &&
            (s.preceding.isNone || s.preceding != some '*') then
          s.tokens ++ [emit (sliceChars pattern 0 s.start i)]
        else s.tokens
      preceding := some c }
  else { s with preceding := some c }

/-- The `fast_tokenizer_no_regex` loop over the remaining characters, starting
at byte offset `i`. -/
def noRegexGo {α : Type} (emit : List Char → α) (isAllowed : Char → Bool)
    (skipFirst : Bool) (pattern : List Char) :
    List Char → Nat → ScanState α → ScanState α
  | [], _, s => s
  | c :: cs, i, s =>
    noRegexGo emit isAllowed skipFirst pattern cs (i + utf8Size c)
      (noRegexStep emit isAllowed skipFirst pattern i c s)

/-- The `fast_tokenizer_no_regex` loop run over the whole pattern from the
initial state. -/
def noRegexLoop {α : Type} (emit : List Char → α) (isAllowed : Char → Bool)
    (skipFirst : Bool) (pattern : List Char) : ScanState α :=
  noRegexGo emit isAllowed skipFirst pattern pattern 0 ⟨[], false, 0, none⟩

/-- `fast_tokenizer_no_regex` from `utils.rs`, generic in the emission
function: the loop followed by the end-of-input trailing-token emission. -/
def noRegexScan {α : Type} (emit : List Char → α) (isAllowed : Char → Bool)
    (skipFirst skipLast : Bool) (pattern : List Char) : List α :=
  let s := noRegexLoop emit isAllowed skipFirst pattern
  if s.inside && decide (1 < utf8Len pattern - s.start) &&
      (s.preceding.isNone || s.preceding != some '*') && !skipLast then
    s.tokens ++ [emit (sliceChars pattern 0 s.start (utf8Len pattern))]
  else s.tokens

/-- `fast_tokenizer_no_regex` from `utils.rs` (suppressing variant). -/
def fast_tokenizer_no_regex (pattern : List Char) (isAllowed : Char → Bool)
    (skipFirst skipLast : Bool) : List Hash :=
  noRegexScan fast_hash isAllowed skipFirst skipLast pattern

/-- The suppressing scanner instrumented to emit the token substrings
themselves instead of their hashes. -/
def filter_token_slices (pattern : List Char) (skipFirst skipLast : Bool) :
    List (List Char) :=
  noRegexScan id is_allowed_filter skipFirst skipLast pattern

/-- Loop state of the basic scanner `fast_tokenizer`. -/
structure BScanState (α : Type) where
  tokens : List α
  inside : Bool
  start : Nat

/-- One iteration of the `fast_tokenizer` loop. -/
def basicStep {α : Type} (emit : List Char → α) (isAllowed : Char → Bool)
    (pattern : List Char) (i : Nat) (c : Char) (s : BScanState α) : BScanState α :=
  if TOKENS_BUFFER_SIZE ≤ s.tokens.length then s
  else if isAllowed c then
    if s.inside then s else { s with inside := true, start := i }
  else if s.inside then
    { s with inside := false, tokens := s.tokens ++ [emit (sliceChars pattern 0 s.start i)] }
  else s

/-- The `fast_tokenizer` loop over the remaining characters. -/
def basicGo {α : Type} (emit : List Char → α) (isAllowed : Char → Bool)
    (pattern : List Char) : List Char → Nat → BScanState α → BScanState α
  | [], _, s => s
  | c :: cs, i, s =>
    basicGo emit isAllowed pattern cs (i + utf8Size c) (basicStep emit isAllowed pattern i c s)

/-- The `fast_tokenizer` loop run over the whole pattern. -/
def basicLoop {α : Type} (emit : List Char → α) (isAllowed : Char → Bool)
    (pattern : List Char) : BScanState α :=
  basicGo emit isAllowed pattern pattern 0 ⟨[], false, 0⟩

/-- `fast_tokenizer` from `utils.rs`, generic in the emission function. -/
def basicScan {α : Type} (emit : List Char → α) (isAllowed : Char → Bool)
    (pattern : List Char) : List α :=
  let s := basicLoop emit isAllowed pattern
  if s.inside then s.tokens ++ [emit (sliceChars pattern 0 s.start (utf8Len pattern))]
  else s.tokens

/-- `fast_tokenizer` from `utils.rs` (basic variant, unconditional emission). -/
def fast_tokenizer (pattern : List Char) (isAllowed : Char → Bool) : List Hash :=
  basicScan fast_hash isAllowed pattern

/-- `tokenize` from `utils.rs`. -/
def tokenize (pattern : List Char) : List Hash :=
  fast_tokenizer_no_regex pattern is_allowed_filter false false

/-- `tokenize_filter` from `utils.rs`. -/
def tokenize_filter (pattern : List Char) (skipFirst skipLast : Bool) : List Hash :=
  fast_tokenizer_no_regex pattern is_allowed_filter skipFirst skipLast

/-- `tokenize_hostnames` from `utils.rs`. -/
def tokenize_hostnames (pattern : List Char) : List Hash :=
  fast_tokenizer pattern is_allowed_hostname

/-- Removal of consecutive duplicates after a kept element `prev`
(the loop of Rust `Vec::dedup`). -/
def dedupAfter (prev : Nat) : List Nat → List Nat
  | [] => []
  | b :: l => if prev == b then dedupAfter prev l else b :: dedupAfter b l

/-- Rust `Vec::dedup`: remove consecutive duplicate values. -/
def dedupConsec : List Nat → List Nat
  | [] => []
  | a :: l => a :: dedupAfter a l

/-- `compact_tokens` from `utils.rs`: `sort_unstable` then `dedup`. On `Nat`
values every correct sort produces the same list, so `sort_unstable` is
modelled by insertion sort. -/
def compact_tokens (tokens : List Hash) : List Hash :=
  dedupConsec (List.insertionSort (· ≤ ·) tokens)

/-- `create_fuzzy_signature` from `utils.rs`: basic scan over the filter
alphabet, then sort and deduplicate. -/
def create_fuzzy_signature (pattern : List Char) : List Hash :=
  compact_tokens (fast_tokenizer pattern is_allowed_filter)

/-- Binary search on `[lo, hi)`, the classic halving loop of Rust
`slice::binary_search`. -/
def binSearchAux (arr : List Nat) (elt : Nat) (lo hi : Nat) : Option Nat :=
  if h : lo < hi then
    if arr.getD ((lo + hi) / 2) 0 < elt then binSearchAux arr elt ((lo + hi) / 2 + 1) hi
    else if elt < arr.getD ((lo + hi) / 2) 0 then binSearchAux arr elt lo ((lo + hi) / 2)
    else some ((lo + hi) / 2)
  else none
termination_by hi - lo
decreasing_by
  all_goals omega

/-- `bin_search` from `utils.rs`: `slice::binary_search(...).ok()`, at the
`u32` element type the callers use. -/
def bin_search (arr : List Nat) (elt : Nat) : Option Nat :=
  binSearchAux arr elt 0 arr.length

/-- `bin_lookup` from `utils.rs`: `slice::binary_search(...).is_ok()`. -/
def bin_lookup (arr : List Nat) (elt : Nat) : Bool :=
  (bin_search arr elt).isSome

/-- `get_bit` from `utils.rs`. -/
def get_bit (n mask : Nat) : Bool :=
  (n &&& mask) != 0

/-- `set_bit` from `utils.rs`. -/
def set_bit (n mask : Nat) : Nat :=
  n ||| mask

/-- `clear_bit` from `utils.rs`: `n & !mask` with a 32-bit complement. -/
def clear_bit (n mask : Nat) : Nat :=
  n &&& (mask ^^^ 4294967295)

/-! ### Byte-length and slice lemmas -/

lemma utf8Size_pos (c : Char) : 1 ≤ utf8Size c := by
  unfold utf8Size; split_ifs <;> omega

lemma utf8Len_cons (c : Char) (l : List Char) :
    utf8Len (c :: l) = utf8Size c + utf8Len l := by
  simp [utf8Len]

lemma utf8Len_append (a b : List Char) :
    utf8Len (a ++ b) = utf8Len a + utf8Len b := by
  simp [utf8Len]

lemma sliceChars_cons (c : Char) (cs : List Char) (off start stop : Nat) :
    sliceChars (c :: cs) off start stop =
      if start ≤ off ∧ off < stop then c :: sliceChars cs (off + utf8Size c) start stop
      else sliceChars cs (off + utf8Size c) start stop := rfl

lemma sliceChars_of_stop_le (cs : List Char) :
    ∀ off start stop, stop ≤ off → sliceChars cs off start stop = [] := by
  induction cs with
  | nil => intro off start stop _; rfl
  | cons c cs ih =>
    intro off start stop h
    unfold sliceChars
    rw [if_neg (by omega)]
    exact ih _ _ _ (by omega)

lemma sliceChars_of_le_start (cs : List Char) :
    ∀ off start stop, off + utf8Len cs ≤ start → sliceChars cs off start stop = [] := by
  induction cs with
  | nil => intro off start stop _; rfl
  | cons c cs ih =>
    intro off start stop h
    rw [utf8Len_cons] at h
    have hc := utf8Size_pos c
    unfold sliceChars
    rw [if_neg (by omega)]
    exact ih _ _ _ (by omega)

lemma sliceChars_full (cs : List Char) :
    ∀ off start stop, start ≤ off → off + utf8Len cs ≤ stop →
      sliceChars cs off start stop = cs := by
  induction cs with
  | nil => intro off start stop _ _; rfl
  | cons c cs ih =>
    intro off start stop h1 h2
    rw [utf8Len_cons] at h2
    have hc := utf8Size_pos c
    unfold sliceChars
    rw [if_pos (by omega)]
    rw [ih _ _ _ (by omega) (by omega)]

lemma sliceChars_append (a b : List Char) :
    ∀ off start stop, sliceChars (a ++ b) off start stop =
      sliceChars a off start stop ++ sliceChars b (off + utf8Len a) start stop := by
  induction a with
  | nil => intro off start stop; simp [sliceChars, utf8Len]
  | cons c a ih =>
    intro off start stop
    rw [List.cons_append, sliceChars_cons, sliceChars_cons, ih, utf8Len_cons]
    by_cases h : start ≤ off ∧ off < stop
    · rw [if_pos h, if_pos h]
      simp [Nat.add_assoc]
    · rw [if_neg h, if_neg h]
      simp [Nat.add_assoc]

lemma sliceChars_decomp (q mid rest : List Char) :
    sliceChars (q ++ (mid ++ rest)) 0 (utf8Len q) (utf8Len q + utf8Len mid) = mid := by
  rw [sliceChars_append, sliceChars_append]
  rw [sliceChars_of_le_start q _ _ _ (by omega)]
  rw [sliceChars_full mid _ _ _ (by omega) (by omega)]
  rw [sliceChars_of_stop_le rest _ _ _ (by omega)]
  simp

lemma sliceChars_whole (p : List Char) : sliceChars p 0 0 (utf8Len p) = p :=
  sliceChars_full p 0 0 (utf8Len p) (Nat.le_refl 0) (by omega)

/-! ### Buffer-cap invariants of the scanners -/

lemma noRegexStep_len {α : Type} (e : List Char → α) (a : Char → Bool) (f : Bool)
    (p : List Char) (i : Nat) (c : Char) (s : ScanState α)
    (h1 : s.tokens.length ≤ 200) (h2 : s.inside = true → s.tokens.length < 200) :
    (noRegexStep e a f p i c s).tokens.length ≤ 200 ∧
      ((noRegexStep e a f p i c s).inside = true →
        (noRegexStep e a f p i c s).tokens.length < 200) := by
  unfold noRegexStep TOKENS_BUFFER_SIZE
  split_ifs <;> simp_all <;> omega

lemma noRegexGo_len {α : Type} (e : List Char → α) (a : Char → Bool) (f : Bool)
    (p : List Char) :
    ∀ (cs : List Char) (i : Nat) (s : ScanState α),
      s.tokens.length ≤ 200 → (s.inside = true → s.tokens.length < 200) →
      (noRegexGo e a f p cs i s).tokens.length ≤ 200 ∧
        ((noRegexGo e a f p cs i s).inside = true →
          (noRegexGo e a f p cs i s).tokens.length < 200) := by
  intro cs
  induction cs with
  | nil => intro i s h1 h2; exact ⟨h1, h2⟩
  | cons c cs ih =>
    intro i s h1 h2
    have h := noRegexStep_len e a f p i c s h1 h2
    exact ih _ _ h.1 h.2

lemma noRegexGo_stop {α : Type} (e : List Char → α) (a : Char → Bool) (f : Bool)
    (p : List Char) :
    ∀ (cs : List Char) (i : Nat) (s : ScanState α),
      200 ≤ s.tokens.length → noRegexGo e a f p cs i s = s := by
  intro cs
  induction cs with
  | nil => intro i s _; rfl
  | cons c cs ih =>
    intro i s h
    have hs : noRegexStep e a f p i c s = s := by
      unfold noRegexStep TOKENS_BUFFER_SIZE
      rw [if_pos h]
    show noRegexGo e a f p cs (i + utf8Size c) (noRegexStep e a f p i c s) = s
    rw [hs]
    exact ih _ _ h

lemma basicStep_len {α : Type} (e : List Char → α) (a : Char → Bool)
    (p : List Char) (i : Nat) (c : Char) (s : BScanState α)
    (h1 : s.tokens.length ≤ 200) (h2 : s.inside = true → s.tokens.length < 200) :
    (basicStep e a p i c s).tokens.length ≤ 200 ∧
      ((basicStep e a p i c s).inside = true →
        (basicStep e a p i c s).tokens.length < 200) := by
  unfold basicStep TOKENS_BUFFER_SIZE
  split_ifs <;> simp_all <;> omega

lemma basicGo_len {α : Type} (e : List Char → α) (a : Char → Bool) (p : List Char) :
    ∀ (cs : List Char) (i : Nat) (s : BScanState α),
      s.tokens.length ≤ 200 → (s.inside = true → s.tokens.length < 200) →
      (basicGo e a p cs i s).tokens.length ≤ 200 ∧
        ((basicGo e a p cs i s).inside = true →
          (basicGo e a p cs i s).tokens.length < 200) := by
  intro cs
  induction cs with
  | nil => intro i s h1 h2; exact ⟨h1, h2⟩
  | cons c cs ih =>
    intro i s h1 h2
    have h := basicStep_len e a p i c s h1 h2
    exact ih _ _ h.1 h.2

lemma noRegexLoop_len {α : Type} (e : List Char → α) (a : Char → Bool) (f : Bool)
    (p : List Char) :
    (noRegexLoop e a f p).tokens.length ≤ 200 ∧
      ((noRegexLoop e a f p).inside = true → (noRegexLoop e a f p).tokens.length < 200) :=
  noRegexGo_len e a f p p 0 ⟨[], false, 0, none⟩ (by simp) (by simp)

lemma basicLoop_len {α : Type} (e : List Char → α) (a : Char → Bool) (p : List Char) :
    (basicLoop e a p).tokens.length ≤ 200 ∧
      ((basicLoop e a p).inside = true → (basicLoop e a p).tokens.length < 200) :=
  basicGo_len e a p p 0 ⟨[], false, 0⟩ (by simp) (by simp)

lemma noRegexScan_len {α : Type} (e : List Char → α) (a : Char → Bool) (f l : Bool)
    (p : List Char) : (noRegexScan e a f l p).length ≤ 200 := by
  unfold noRegexScan
  have h := noRegexLoop_len e a f p
  dsimp only
  split_ifs with hc
  · simp only [Bool.and_eq_true] at hc
    have := h.2 hc.1.1.1
    simp
    omega
  · exact h.1

lemma basicScan_len {α : Type} (e : List Char → α) (a : Char → Bool)
    (p : List Char) : (basicScan e a p).length ≤ 200 := by
  unfold basicScan
  have h := basicLoop_len e a p
  dsimp only
  split_ifs with hc
  · have := h.2 hc
    simp
    omega
  · exact h.1

/-! ### The hash scanner is the slice scanner mapped through `fast_hash` -/

lemma noRegexStep_hash (a : Char → Bool) (f : Bool) (p : List Char) (i : Nat)
    (c : Char) (tok : List (List Char)) (ins : Bool) (st : Nat) (pc : Option Char) :
    noRegexStep fast_hash a f p i c ⟨tok.map fast_hash, ins, st, pc⟩ =
      ⟨(noRegexStep id a f p i c ⟨tok, ins, st, pc⟩).tokens.map fast_hash,
        (noRegexStep id a f p i c ⟨tok, ins, st, pc⟩).inside,
        (noRegexStep id a f p i c ⟨tok, ins, st, pc⟩).start,
        (noRegexStep id a f p i c ⟨tok, ins, st, pc⟩).preceding⟩ := by
  unfold noRegexStep
  dsimp only
  simp only [List.length_map]
  split_ifs <;> simp

lemma noRegexGo_hash (a : Char → Bool) (f : Bool) (p : List Char) :
    ∀ (cs : List Char) (i : Nat) (tok : List (List Char)) (ins : Bool) (st : Nat)
      (pc : Option Char),
      noRegexGo fast_hash a f p cs i ⟨tok.map fast_hash, ins, st, pc⟩ =
        ⟨(noRegexGo id a f p cs i ⟨tok, ins, st, pc⟩).tokens.map fast_hash,
          (noRegexGo id a f p cs i ⟨tok, ins, st, pc⟩).inside,
          (noRegexGo id a f p cs i ⟨tok, ins, st, pc⟩).start,
          (noRegexGo id a f p cs i ⟨tok, ins, st, pc⟩).preceding⟩ := by
  intro cs
  induction cs with
  | nil => intro i tok ins st pc; rfl
  | cons c cs ih =>
    intro i tok ins st pc
    show noRegexGo fast_hash a f p cs (i + utf8Size c)
        (noRegexStep fast_hash a f p i c ⟨tok.map fast_hash, ins, st, pc⟩) = _
    rw [noRegexStep_hash]
    cases hs : noRegexStep id a f p i c ⟨tok, ins, st, pc⟩ with
    | mk tok2 ins2 st2 pc2 =>
      have hgo : noRegexGo id a f p (c :: cs) i ⟨tok, ins, st, pc⟩ =
          noRegexGo id a f p cs (i + utf8Size c) ⟨tok2, ins2, st2, pc2⟩ := by
        show noRegexGo id a f p cs (i + utf8Size c)
            (noRegexStep id a f p i c ⟨tok, ins, st, pc⟩) = _
        rw [hs]
      rw [hgo]
      exact ih (i + utf8Size c) tok2 ins2 st2 pc2

lemma noRegexScan_hash (a : Char → Bool) (f l : Bool) (p : List Char) :
    noRegexScan fast_hash a f l p = (noRegexScan id a f l p).map fast_hash := by
  unfold noRegexScan noRegexLoop
  have h := noRegexGo_hash a f p p 0 [] false 0 none
  dsimp only [List.map_nil] at h
  rw [h]
  dsimp only
  split_ifs <;> simp

/-! ### Every token of the suppressing scanner spans more than one byte -/

lemma noRegexStep_slices (a : Char → Bool) (f : Bool) (pattern : List Char)
    (pre rest : List Char) (c : Char) (s : ScanState (List Char))
    (hpat : pattern = pre ++ c :: rest)
    (hsplit : s.inside = true → ∃ q mid, pre = q ++ mid ∧ utf8Len q = s.start)
    (htok : ∀ t ∈ s.tokens, 1 < utf8Len t) :
    ((noRegexStep id a f pattern (utf8Len pre) c s).inside = true →
      ∃ q mid, pre ++ [c] = q ++ mid ∧
        utf8Len q = (noRegexStep id a f pattern (utf8Len pre) c s).start) ∧
    (∀ t ∈ (noRegexStep id a f pattern (utf8Len pre) c s).tokens, 1 < utf8Len t) := by
  have hext : (s.inside = true → ∃ q mid, pre = q ++ mid ∧ utf8Len q = s.start) →
      s.inside = true → ∃ q mid, pre ++ [c] = q ++ mid ∧ utf8Len q = s.start := by
    intro hsp hins
    obtain ⟨q, mid, hq, hlen⟩ := hsp hins
    exact ⟨q, mid ++ [c], by rw [hq, List.append_assoc], hlen⟩
  by_cases hcap : TOKENS_BUFFER_SIZE ≤ s.tokens.length
  · have hstep : noRegexStep id a f pattern (utf8Len pre) c s = s := by
      unfold noRegexStep
      rw [if_pos hcap]
    rw [hstep]
    exact ⟨hext hsplit, htok⟩
  by_cases hal : a c = true
  · by_cases hin : s.inside = true
    · have hstep : noRegexStep id a f pattern (utf8Len pre) c s = s := by
        unfold noRegexStep
        rw [if_neg hcap, if_pos hal, if_pos hin]
      rw [hstep]
      exact ⟨hext hsplit, htok⟩
    · have hstep : noRegexStep id a f pattern (utf8Len pre) c s =
          { s with inside := true, start := utf8Len pre } := by
        unfold noRegexStep
        rw [if_neg hcap, if_pos hal, if_neg hin]
      rw [hstep]
      exact ⟨fun _ => ⟨pre, [c], rfl, rfl⟩, htok⟩
  · by_cases hin : s.inside = true
    · by_cases hemit : ((!f || s.start != 0) && decide (1 < utf8Len pre - s.start) &&
          c != '*' && (s.preceding.isNone || s.preceding != some '*')) = true
      · have hstep : noRegexStep id a f pattern (utf8Len pre) c s =
            { s with inside := false
                     tokens := s.tokens ++ [id (sliceChars pattern 0 s.start (utf8Len pre))]
                     preceding := some c } := by
          unfold noRegexStep
          rw [if_neg hcap, if_neg hal, if_pos hin, if_pos hemit]
        rw [hstep]
        refine ⟨fun hins => by simp at hins, ?_⟩
        intro t ht
        simp only [List.mem_append, List.mem_singleton] at ht
        rcases ht with ht | ht
        · exact htok t ht
        · obtain ⟨q, mid, hq, hlen⟩ := hsplit hin
          simp only [Bool.and_eq_true, decide_eq_true_eq] at hemit
          have hmid : utf8Len pre = utf8Len q + utf8Len mid := by
            rw [hq, utf8Len_append]
          have hslice : sliceChars pattern 0 s.start (utf8Len pre) = mid := by
            rw [hpat, hq, List.append_assoc, ← hlen, utf8Len_append]
            exact sliceChars_decomp q mid (c :: rest)
          rw [ht]
          show 1 < utf8Len (sliceChars pattern 0 s.start (utf8Len pre))
          rw [hslice]
          have h2 := hemit.1.1.2
          omega
      · have hstep : noRegexStep id a f pattern (utf8Len pre) c s =
            { s with inside := false, preceding := some c } := by
          unfold noRegexStep
          rw [if_neg hcap, if_neg hal, if_pos hin, if_neg hemit]
        rw [hstep]
        exact ⟨fun hins => by simp at hins, htok⟩
    · have hstep : noRegexStep id a f pattern (utf8Len pre) c s =
          { s with preceding := some c } := by
        unfold noRegexStep
        rw [if_neg hcap, if_neg hal, if_neg hin]
      rw [hstep]
      refine ⟨fun hins => ?_, htok⟩
      simp only at hins
      exact absurd hins hin


lemma noRegexGo_slices (a : Char → Bool) (f : Bool) (pattern : List Char) :
    ∀ (cs pre : List Char) (s : ScanState (List Char)),
      pattern = pre ++ cs →
      (s.inside = true → ∃ q mid, pre = q ++ mid ∧ utf8Len q = s.start) →
      (∀ t ∈ s.tokens, 1 < utf8Len t) →
      (∀ t ∈ (noRegexGo id a f pattern cs (utf8Len pre) s).tokens, 1 < utf8Len t) ∧
        ((noRegexGo id a f pattern cs (utf8Len pre) s).inside = true →
          ∃ q mid, pattern = q ++ mid ∧
            utf8Len q = (noRegexGo id a f pattern cs (utf8Len pre) s).start) := by
  intro cs
  induction cs with
  | nil =>
    intro pre s hpat hsplit htok
    refine ⟨htok, fun hins => ?_⟩
    obtain ⟨q, mid, hq, hlen⟩ := hsplit hins
    rw [List.append_nil] at hpat
    exact ⟨q, mid, by rw [hpat, hq], hlen⟩
  | cons c cs ih =>
    intro pre s hpat hsplit htok
    have hstep := noRegexStep_slices a f pattern pre cs c s hpat hsplit htok
    have hlen2 : utf8Len pre + utf8Size c = utf8Len (pre ++ [c]) := by
      rw [utf8Len_append, utf8Len_cons]
      simp [utf8Len]
    have hgo : noRegexGo id a f pattern (c :: cs) (utf8Len pre) s =
        noRegexGo id a f pattern cs (utf8Len (pre ++ [c]))
          (noRegexStep id a f pattern (utf8Len pre) c s) := by
      show noRegexGo id a f pattern cs (utf8Len pre + utf8Size c)
          (noRegexStep id a f pattern (utf8Len pre) c s) = _
      rw [hlen2]
    rw [hgo]
    exact ih (pre ++ [c]) (noRegexStep id a f pattern (utf8Len pre) c s)
      (by rw [hpat, List.append_assoc]; rfl) hstep.1 hstep.2

lemma filter_token_slices_long (p : List Char) (f l : Bool) :
    ∀ t ∈ filter_token_slices p f l, 1 < utf8Len t := by
  unfold filter_token_slices noRegexScan noRegexLoop
  have h0 : utf8Len ([] : List Char) = 0 := rfl
  have h := noRegexGo_slices is_allowed_filter f p p [] ⟨[], false, 0, none⟩
    rfl (by intro h; simp at h) (by simp)
  rw [h0] at h
  dsimp only
  set s := noRegexGo id is_allowed_filter f p p 0 ⟨[], false, 0, none⟩ with hsdef
  split_ifs with hc
  · simp only [Bool.and_eq_true, decide_eq_true_eq] at hc
    intro t ht
    simp only [List.mem_append, List.mem_singleton] at ht
    rcases ht with ht | ht
    · exact h.1 t ht
    · obtain ⟨q, mid, hq, hlen⟩ := h.2 hc.1.1.1
      have hl2 : utf8Len p = utf8Len q + utf8Len mid := by rw [hq, utf8Len_append]
      have hslice : sliceChars p 0 s.start (utf8Len p) = mid := by
        rw [← hlen, hl2]
        rw [show p = q ++ (mid ++ []) from by rw [List.append_nil]; exact hq]
        exact sliceChars_decomp q mid []
      rw [ht]
      show 1 < utf8Len (sliceChars p 0 s.start (utf8Len p))
      rw [hslice]
      have := hc.1.1.2
      omega
  · exact h.1

/-! ### A fully-allowed pattern is one trailing token -/

lemma noRegexGo_all_allowed {α : Type} (e : List Char → α) (a : Char → Bool)
    (f : Bool) (pattern : List Char) :
    ∀ (cs : List Char) (i : Nat) (s : ScanState α),
      (∀ c ∈ cs, a c = true) → s.inside = true → s.tokens = [] →
      noRegexGo e a f pattern cs i s = s := by
  intro cs
  induction cs with
  | nil => intro i s _ _ _; rfl
  | cons c cs ih =>
    intro i s hall hin htok
    have hstep : noRegexStep e a f pattern i c s = s := by
      unfold noRegexStep TOKENS_BUFFER_SIZE
      rw [if_neg (by rw [htok]; simp), if_pos (hall c (List.mem_cons_self c cs)), if_pos hin]
    show noRegexGo e a f pattern cs (i + utf8Size c) (noRegexStep e a f pattern i c s) = s
    rw [hstep]
    exact ih _ s (fun d hd => hall d (List.mem_cons_of_mem c hd)) hin htok

/-! ### A trailing separator makes the final state be outside a token -/

lemma noRegexGo_last_sep {α : Type} (e : List Char → α) (a : Char → Bool)
    (f : Bool) (pattern : List Char) :
    ∀ (cs : List Char) (i : Nat) (s : ScanState α) (c : Char),
      a c = false → s.tokens.length ≤ 200 → (s.inside = true → s.tokens.length < 200) →
      (noRegexGo e a f pattern (cs ++ [c]) i s).inside = false := by
  intro cs
  induction cs with
  | nil =>
    intro i s c hc h1 h2
    show (noRegexGo e a f pattern [] (i + utf8Size c) (noRegexStep e a f pattern i c s)).inside = false
    show (noRegexStep e a f pattern i c s).inside = false
    unfold noRegexStep TOKENS_BUFFER_SIZE
    by_cases hcap : (200 : Nat) ≤ s.tokens.length
    · rw [if_pos hcap]
      cases hins : s.inside with
      | false => rfl
      | true => exact absurd (h2 hins) (by omega)
    · rw [if_neg hcap, if_neg (by rw [hc]; simp)]
      by_cases hin : s.inside = true
      · rw [if_pos hin]
      · rw [if_neg hin]
        exact Bool.not_eq_true s.inside ▸ hin
  | cons d cs ih =>
    intro i s c hc h1 h2
    have h := noRegexStep_len e a f pattern i d s h1 h2
    show (noRegexGo e a f pattern (cs ++ [c]) (i + utf8Size d)
      (noRegexStep e a f pattern i d s)).inside = false
    exact ih _ _ c hc h.1 h.2

/-! ### Deduplication of a sorted list -/

lemma mem_dedupAfter (x : Nat) :
    ∀ (l : List Nat) (a : Nat), x ∈ dedupAfter a l → x ∈ l := by
  intro l
  induction l with
  | nil => intro a h; exact absurd h (by simp [dedupAfter])
  | cons b l ih =>
    intro a h
    unfold dedupAfter at h
    split_ifs at h with hab
    · exact List.mem_cons_of_mem b (ih a h)
    · rcases List.mem_cons.mp h with h | h
      · exact h ▸ List.mem_cons_self b l
      · exact List.mem_cons_of_mem b (ih b h)

lemma dedupAfter_sorted_lt :
    ∀ (l : List Nat) (a : Nat), List.Sorted (· ≤ ·) (a :: l) →
      List.Sorted (· < ·) (a :: dedupAfter a l) := by
  intro l
  induction l with
  | nil => intro a _; simp [dedupAfter]
  | cons b l ih =>
    intro a h
    rw [List.sorted_cons] at h
    unfold dedupAfter
    split_ifs with hab
    · apply ih a
      rw [List.sorted_cons]
      exact ⟨fun y hy => h.1 y (List.mem_cons_of_mem b hy), (List.sorted_cons.mp h.2).2⟩
    · have hb := ih b h.2
      rw [List.sorted_cons]
      refine ⟨?_, hb⟩
      intro y hy
      have hab2 : a < b :=
        lt_of_le_of_ne (h.1 b (List.mem_cons_self b l)) (by simpa using hab)
      rcases List.mem_cons.mp hy with rfl | hy2
      · exact hab2
      · have hyl : y ∈ l := mem_dedupAfter y l b hy2
        exact lt_of_lt_of_le hab2 ((List.sorted_cons.mp h.2).1 y hyl)

lemma dedupConsec_sorted_lt (l : List Nat) (h : List.Sorted (· ≤ ·) l) :
    List.Sorted (· < ·) (dedupConsec l) := by
  cases l with
  | nil => simp [dedupConsec]
  | cons a l => exact dedupAfter_sorted_lt l a h

lemma compact_tokens_sorted_lt (l : List Nat) :
    List.Sorted (· < ·) (compact_tokens l) :=
  dedupConsec_sorted_lt _ (List.sorted_insertionSort (· ≤ ·) l)

lemma compact_tokens_perm_eq (l1 l2 : List Nat) (h : List.Perm l1 l2) :
    compact_tokens l1 = compact_tokens l2 := by
  unfold compact_tokens
  congr 1
  exact List.eq_of_perm_of_sorted
    (((List.perm_insertionSort (· ≤ ·) l1).trans h).trans
      (List.perm_insertionSort (· ≤ ·) l2).symm)
    (List.sorted_insertionSort (· ≤ ·) l1) (List.sorted_insertionSort (· ≤ ·) l2)

/-! ### Binary search -/

lemma sorted_getD_le (arr : List Nat) (hs : List.Sorted (· ≤ ·) arr) :
    ∀ i j, i ≤ j → j < arr.length → arr.getD i 0 ≤ arr.getD j 0 := by
  intro i j hij hj
  rcases Nat.eq_or_lt_of_le hij with rfl | hlt
  · exact Nat.le_refl _
  · rw [List.getD_eq_getElem arr 0 (by omega), List.getD_eq_getElem arr 0 hj]
    exact (List.pairwise_iff_getElem.mp hs) i j (by omega) hj hlt

lemma binSearchAux_sound (arr : List Nat) (elt : Nat) :
    ∀ (fuel lo hi i : Nat), hi - lo ≤ fuel → hi ≤ arr.length →
      binSearchAux arr elt lo hi = some i → i < arr.length ∧ arr.getD i 0 = elt := by
  intro fuel
  induction fuel with
  | zero =>
    intro lo hi i hle hhi h
    rw [binSearchAux] at h
    rw [dif_neg (by omega)] at h
    exact absurd h (by simp)
  | succ n ih =>
    intro lo hi i hle hhi h
    rw [binSearchAux] at h
    by_cases hlh : lo < hi
    · rw [dif_pos hlh] at h
      split_ifs at h with h1 h2
      · exact ih ((lo + hi) / 2 + 1) hi i (by omega) hhi h
      · exact ih lo ((lo + hi) / 2) i (by omega) (by omega) h
      · have heq : (lo + hi) / 2 = i := Option.some.inj h
        refine ⟨by omega, ?_⟩
        rw [← heq]
        omega
    · rw [dif_neg hlh] at h
      exact absurd h (by simp)

lemma binSearchAux_complete (arr : List Nat) (elt : Nat)
    (hs : List.Sorted (· ≤ ·) arr) :
    ∀ (fuel lo hi j : Nat), hi - lo ≤ fuel → hi ≤ arr.length →
      lo ≤ j → j < hi → arr.getD j 0 = elt →
      (binSearchAux arr elt lo hi).isSome = true := by
  intro fuel
  induction fuel with
  | zero => intro lo hi j hle hhi hj1 hj2 _; omega
  | succ n ih =>
    intro lo hi j hle hhi hj1 hj2 hj
    have hlh : lo < hi := by omega
    rw [binSearchAux, dif_pos hlh]
    split_ifs with h1 h2
    · -- arr[mid] < elt, so j lies strictly right of mid
      have hjmid : (lo + hi) / 2 < j := by
        by_contra hc
        have := sorted_getD_le arr hs j ((lo + hi) / 2) (by omega) (by omega)
        omega
      exact ih ((lo + hi) / 2 + 1) hi j (by omega) hhi (by omega) hj2 hj
    · -- elt < arr[mid], so j lies strictly left of mid
      have hjmid : j < (lo + hi) / 2 := by
        by_contra hc
        have := sorted_getD_le arr hs ((lo + hi) / 2) j (by omega) (by omega)
        omega
      exact ih lo ((lo + hi) / 2) j (by omega) (by omega) hj1 hjmid hj
    · simp

/-! ### Claim theorems -/

/-- Claim C1 counterexample: `tokenize` does not equal the basic scan variant
over the filter alphabet. On `"a.b"` the basic scan emits both
single-character tokens, while `tokenize` (the suppressing variant) drops
them, so the two functions differ. -/
theorem c1_tokenize_ne_basic_scan :
    tokenize ['a', '.', 'b'] ≠ fast_tokenizer ['a', '.', 'b'] is_allowed_filter := by
  decide

/-- Claim C1 (amended): `tokenize` is the suppressing scan
`fast_tokenizer_no_regex` over the filter alphabet with both skip flags
false, not the basic scan; the basic scan over the filter alphabet is the
function used by fuzzy-signature construction, and `tokenize_hostnames` is
the basic scan over the hostname alphabet. -/
theorem c1_tokenize_is_suppressing_scan (p : List Char) :
    tokenize p = fast_tokenizer_no_regex p is_allowed_filter false false ∧
      create_fuzzy_signature p = compact_tokens (fast_tokenizer p is_allowed_filter) ∧
      tokenize_hostnames p = fast_tokenizer p is_allowed_hostname :=
  ⟨rfl, rfl, rfl⟩

/-- Claim C2: every tokenizer entry point returns at most 200 tokens; once
200 tokens have been emitted the scanner ignores all remaining input
(`noRegexGo` leaves a full state unchanged); and whenever the end-of-input
trailing-token write happens the buffer holds fewer than 200 tokens (the
final loop state is outside a token or below the cap), so the write is in
bounds. -/
theorem c2_tokenizer_output_capped (p : List Char) (f l : Bool) :
    (tokenize p).length ≤ 200 ∧
      (tokenize_filter p f l).length ≤ 200 ∧
      (tokenize_hostnames p).length ≤ 200 ∧
      ((noRegexLoop fast_hash is_allowed_filter f p).inside = false ∨
        (noRegexLoop fast_hash is_allowed_filter f p).tokens.length < 200) ∧
      ((basicLoop fast_hash is_allowed_hostname p).inside = false ∨
        (basicLoop fast_hash is_allowed_hostname p).tokens.length < 200) ∧
      (∀ (cs : List Char) (i : Nat) (s : ScanState Hash),
        s.tokens.length < 200 ∨ noRegexGo fast_hash is_allowed_filter f p cs i s = s) := by
  refine ⟨noRegexScan_len fast_hash is_allowed_filter false false p,
    noRegexScan_len fast_hash is_allowed_filter f l p,
    basicScan_len fast_hash is_allowed_hostname p, ?_, ?_, ?_⟩
  · cases hh : (noRegexLoop fast_hash is_allowed_filter f p).inside with
    | false => exact Or.inl rfl
    | true => exact Or.inr ((noRegexLoop_len fast_hash is_allowed_filter f p).2 hh)
  · cases hh : (basicLoop fast_hash is_allowed_hostname p).inside with
    | false => exact Or.inl rfl
    | true => exact Or.inr ((basicLoop_len fast_hash is_allowed_hostname p).2 hh)
  · intro cs i s
    by_cases hlen : s.tokens.length < 200
    · exact Or.inl hlen
    · exact Or.inr (noRegexGo_stop fast_hash is_allowed_filter f p cs i s (by omega))

/-- Claim C3 counterexample: the suppressing variant can emit a token that
consists of a single character. `Ƭ` (U+01AC) is alphanumeric and two bytes
long in UTF-8, so the byte-length check `i - start > 1` passes and
`tokenize_filter "Ƭ." false false` emits the one-character token `"Ƭ"`. -/
theorem c3_single_multibyte_char_token :
    tokenize_filter ['Ƭ', '.'] false false = [fast_hash ['Ƭ']] ∧
      (['Ƭ'] : List Char).length = 1 ∧ utf8Len ['Ƭ'] = 2 := by
  decide

/-- Claim C3 (amended): the suppressing variant never emits a token whose
substring spans at most one byte — the minimum-length check works on byte
offsets, so single-character tokens are dropped exactly when the character
is a single UTF-8 byte, while a single multi-byte character can survive.
`filter_token_slices` is the same scan emitting the token substrings, and
the real tokenizer is its image under `fast_hash`. -/
theorem c3_tokens_span_multiple_bytes (p : List Char) (f l : Bool) :
    (∀ t ∈ filter_token_slices p f l, 1 < utf8Len t) ∧
      tokenize_filter p f l = (filter_token_slices p f l).map fast_hash :=
  ⟨filter_token_slices_long p f l, noRegexScan_hash is_allowed_filter f l p⟩

/-- Witness for C3 (amended) at the pattern `"foo."` and its emitted token
`"foo"`. -/
theorem c3_tokens_span_multiple_bytes_witness : 1 < utf8Len ['f', 'o', 'o'] :=
  (c3_tokens_span_multiple_bytes ['f', 'o', 'o', '.'] false false).1
    ['f', 'o', 'o'] (by decide)

/-- Claim C4: `tokenize` is the suppressing scan over the filter alphabet
invoked with both skip flags false. -/
theorem c4_tokenize_eq_tokenize_filter (p : List Char) :
    tokenize p = tokenize_filter p false false := rfl

/-- Claim C5: on `"*foo.bar*"` both tokens are adjacent to a `*`, so the
suppressing variant (and `tokenize`, which is that variant with both flags
false) returns the empty sequence. -/
theorem c5_star_wrapped_pattern_empty :
    tokenize_filter ['*', 'f', 'o', 'o', '.', 'b', 'a', 'r', '*'] false false = [] ∧
      tokenize ['*', 'f', 'o', 'o', '.', 'b', 'a', 'r', '*'] = [] := by
  decide

/-- Claim C6: the trailing token is vetoed only by the byte-length check, a
preceding `*`, and `skipLast`; `skipFirst` is not consulted for it. Hence a
pattern made entirely of filter-alphabet characters with byte length at
least 2 yields its own hash under `tokenize_filter p true false` even though
the token starts at offset 0, while `skipLast` alone suppresses it. -/
theorem c6_trailing_token_ignores_skip_first (p : List Char)
    (hall : ∀ c ∈ p, is_allowed_filter c = true) (hlen : 2 ≤ utf8Len p) :
    tokenize_filter p true false = [fast_hash p] ∧
      tokenize_filter p true true = [] := by
  cases p with
  | nil => simp [utf8Len] at hlen
  | cons c cs =>
    have hstate : noRegexLoop fast_hash is_allowed_filter true (c :: cs) =
        ⟨[], true, 0, none⟩ := by
      unfold noRegexLoop
      have hstep : noRegexStep fast_hash is_allowed_filter true (c :: cs) 0 c
          ⟨[], false, 0, none⟩ = ⟨[], true, 0, none⟩ := by
        unfold noRegexStep TOKENS_BUFFER_SIZE
        rw [if_neg (by simp), if_pos (hall c (List.mem_cons_self c cs)), if_neg (by simp)]
      show noRegexGo fast_hash is_allowed_filter true (c :: cs) cs (0 + utf8Size c)
          (noRegexStep fast_hash is_allowed_filter true (c :: cs) 0 c ⟨[], false, 0, none⟩) = _
      rw [hstep]
      exact noRegexGo_all_allowed fast_hash is_allowed_filter true (c :: cs) cs
        (0 + utf8Size c) ⟨[], true, 0, none⟩
        (fun d hd => hall d (List.mem_cons_of_mem c hd)) rfl rfl
    constructor
    · show noRegexScan fast_hash is_allowed_filter true false (c :: cs) = _
      unfold noRegexScan
      rw [hstate]
      dsimp only
      rw [if_pos (by simp; omega)]
      rw [sliceChars_whole]
      simp
    · show noRegexScan fast_hash is_allowed_filter true true (c :: cs) = _
      unfold noRegexScan
      rw [hstate]
      dsimp only
      rw [if_neg (by simp)]

/-- Witness for C6 at the all-alphabet pattern `"fo"`. -/
theorem c6_trailing_token_ignores_skip_first_witness :
    tokenize_filter ['f', 'o'] true false = [fast_hash ['f', 'o']] ∧
      tokenize_filter ['f', 'o'] true true = [] :=
  c6_trailing_token_ignores_skip_first ['f', 'o'] (by decide) (by decide)

/-- Claim C7: fuzzy signatures are sorted ascending without duplicates, and
patterns whose basic-scan tokens are a permutation of one another (for
example, word reorderings) get the same signature; in particular
`create_fuzzy_signature "foo bar" = create_fuzzy_signature "bar foo"`. -/
theorem c7_fuzzy_signature_canonical (p q : List Char)
    (hperm : List.Perm (fast_tokenizer p is_allowed_filter)
      (fast_tokenizer q is_allowed_filter)) :
    List.Sorted (· ≤ ·) (create_fuzzy_signature p) ∧
      (create_fuzzy_signature p).Nodup ∧
      create_fuzzy_signature p = create_fuzzy_signature q ∧
      create_fuzzy_signature ['f', 'o', 'o', ' ', 'b', 'a', 'r'] =
        create_fuzzy_signature ['b', 'a', 'r', ' ', 'f', 'o', 'o'] := by
  have hlt := compact_tokens_sorted_lt (fast_tokenizer p is_allowed_filter)
  refine ⟨hlt.imp (fun h => Nat.le_of_lt h), hlt.imp (fun h => Nat.ne_of_lt h),
    compact_tokens_perm_eq _ _ hperm, ?_⟩
  decide

/-- Witness for C7 at the patterns `"foo bar"` and `"bar foo"`. -/
theorem c7_fuzzy_signature_canonical_witness :
    List.Sorted (· ≤ ·) (create_fuzzy_signature ['f', 'o', 'o', ' ', 'b', 'a', 'r']) ∧
      (create_fuzzy_signature ['f', 'o', 'o', ' ', 'b', 'a', 'r']).Nodup ∧
      create_fuzzy_signature ['f', 'o', 'o', ' ', 'b', 'a', 'r'] =
        create_fuzzy_signature ['b', 'a', 'r', ' ', 'f', 'o', 'o'] ∧
      create_fuzzy_signature ['f', 'o', 'o', ' ', 'b', 'a', 'r'] =
        create_fuzzy_signature ['b', 'a', 'r', ' ', 'f', 'o', 'o'] :=
  c7_fuzzy_signature_canonical ['f', 'o', 'o', ' ', 'b', 'a', 'r']
    ['b', 'a', 'r', ' ', 'f', 'o', 'o'] (by decide)

/-- Claim C8 counterexample: at `mask = 0` the claimed identity
`getBit (setBit word mask) mask = true` fails, since `(word ||| 0) &&& 0`
is `0`. -/
theorem c8_zero_mask_counterexample : ¬ get_bit (set_bit 0 0) 0 = true := by
  decide

/-- Claim C8 (amended): for every word and every nonzero 32-bit mask,
`getBit (setBit word mask) mask = true`; and for every 32-bit mask (zero
included) `getBit (clearBit word mask) mask = false`. -/
theorem c8_bit_roundtrip (word mask : Nat) (h32 : mask < 4294967296) :
    (mask ≠ 0 → get_bit (set_bit word mask) mask = true) ∧
      get_bit (clear_bit word mask) mask = false := by
  constructor
  · intro h0
    have habs : (word ||| mask) &&& mask = mask := by
      apply Nat.eq_of_testBit_eq
      intro i
      rw [Nat.testBit_and, Nat.testBit_or]
      cases word.testBit i <;> cases mask.testBit i <;> rfl
    unfold get_bit set_bit
    rw [habs]
    simpa using h0
  · have hz : (word &&& (mask ^^^ 4294967295)) &&& mask = 0 := by
      apply Nat.eq_of_testBit_eq
      intro i
      rw [Nat.testBit_and, Nat.testBit_and, Nat.testBit_xor, Nat.zero_testBit]
      by_cases hi : i < 32
      · rw [show (4294967295 : Nat) = 2 ^ 32 - 1 from by norm_num,
          Nat.testBit_two_pow_sub_one]
        cases mask.testBit i <;> simp [hi]
      · have h2 : (4294967296 : Nat) ≤ 2 ^ i := by
          calc (4294967296 : Nat) = 2 ^ 32 := by norm_num
            _ ≤ 2 ^ i := Nat.pow_le_pow_right (by norm_num) (by omega)
        have hm : mask.testBit i = false :=
          Nat.testBit_lt_two_pow (lt_of_lt_of_le h32 h2)
        rw [hm]
        simp
    unfold get_bit clear_bit
    rw [hz]
    rfl

/-- Witness for C8 (amended): the nonzero conjunct at `word = 5`,
`mask = 4`, and the clear-bit conjunct at the zero mask. -/
theorem c8_bit_roundtrip_witness :
    get_bit (set_bit 5 4) 4 = true ∧ get_bit (clear_bit 5 0) 0 = false :=
  ⟨(c8_bit_roundtrip 5 4 (by decide)).1 (by decide),
    (c8_bit_roundtrip 5 0 (by decide)).2⟩

/-- Claim C9: on an ascending sorted sequence, `bin_search` returns some
index holding the value exactly when the value occurs (any matching index),
the empty sequence yields `none`, and `bin_lookup` agrees with
`bin_search ... |>.isSome`. -/
theorem c9_bin_search_correct (arr : List Nat) (v : Nat)
    (hs : List.Sorted (· ≤ ·) arr) :
    ((bin_search arr v).isSome = true ↔ v ∈ arr) ∧
      (∀ i, bin_search arr v = some i → i < arr.length ∧ arr.getD i 0 = v) ∧
      bin_lookup arr v = (bin_search arr v).isSome ∧
      bin_search ([] : List Nat) v = none := by
  refine ⟨⟨?_, ?_⟩, ?_, rfl, ?_⟩
  · intro hsome
    obtain ⟨i, hi⟩ := Option.isSome_iff_exists.mp hsome
    obtain ⟨hilen, hval⟩ := binSearchAux_sound arr v arr.length 0 arr.length i
      (by omega) (Nat.le_refl _) hi
    rw [← hval, List.getD_eq_getElem arr 0 hilen]
    exact List.getElem_mem hilen
  · intro hmem
    obtain ⟨i, hilen, hval⟩ := List.mem_iff_getElem.mp hmem
    exact binSearchAux_complete arr v hs arr.length 0 arr.length i (by omega)
      (Nat.le_refl _) (by omega) hilen
      (by rw [List.getD_eq_getElem arr 0 hilen]; exact hval)
  · intro i hi
    exact binSearchAux_sound arr v arr.length 0 arr.length i (by omega)
      (Nat.le_refl _) hi
  · show binSearchAux [] v 0 ([] : List Nat).length = none
    rw [binSearchAux]
    simp

/-- Witness for C9 at the sorted sequence `[1, 3, 5]` and value `3`. -/
theorem c9_bin_search_correct_witness :
    ((bin_search [1, 3, 5] 3).isSome = true ↔ 3 ∈ ([1, 3, 5] : List Nat)) ∧
      (∀ i, bin_search [1, 3, 5] 3 = some i →
        i < ([1, 3, 5] : List Nat).length ∧ ([1, 3, 5] : List Nat).getD i 0 = 3) ∧
      bin_lookup [1, 3, 5] 3 = (bin_search [1, 3, 5] 3).isSome ∧
      bin_search ([] : List Nat) 3 = none :=
  c9_bin_search_correct [1, 3, 5] 3 (by decide)

/-- Claim C10: when the pattern ends with a character outside the filter
alphabet the scan is not inside a token at end of input, so the `skipLast`
flag has no effect on the result. -/
theorem c10_skip_last_trailing_separator (p : List Char) (c : Char) (f : Bool)
    (hc : is_allowed_filter c = false) :
    tokenize_filter (p ++ [c]) f true = tokenize_filter (p ++ [c]) f false := by
  show noRegexScan fast_hash is_allowed_filter f true (p ++ [c]) =
    noRegexScan fast_hash is_allowed_filter f false (p ++ [c])
  have hin : (noRegexLoop fast_hash is_allowed_filter f (p ++ [c])).inside = false := by
    unfold noRegexLoop
    exact noRegexGo_last_sep fast_hash is_allowed_filter f (p ++ [c]) p 0
      ⟨[], false, 0, none⟩ c hc (by simp) (by simp)
  unfold noRegexScan
  dsimp only
  rw [hin]
  simp

/-- Witness for C10 at the pattern `"foo/"`. -/
theorem c10_skip_last_trailing_separator_witness :
    tokenize_filter (['f', 'o', 'o'] ++ ['/']) false true =
      tokenize_filter (['f', 'o', 'o'] ++ ['/']) false false :=
  c10_skip_last_trailing_separator ['f', 'o', 'o'] '/' false (by decide)
